import Mathlib

/-
Verification of the find/replace and region logic of OutputTextEdit
(src/qt/src/OutputTextEdit.cc).

Embedding notes.
* A document is a `List Char`; Qt block (paragraph) separators are modelled
  as the character '\n' occupying one position, exactly as in the plain-text
  view of a QTextDocument.  Positions are `Nat` in `[0, doc.length]`.
* A QTextCursor is a pair (anchor, position); its selection is the interval
  between `min` and `max` of the two.
* QTextDocument::find with a QRegularExpression is modelled by an abstract
  `QRegex` record: a forward search (from a position), a backward search,
  the `QRegularExpression::match(text, offset).hasMatch()` test used on the
  current selection, and a Boolean match predicate.  Per Qt, a found cursor
  has anchor = match start and position = match end, for both directions.
  Note that in the C++ source `regex.match(selCursor.selectedText(), flags)`
  implicitly converts the QTextDocument::FindFlags to an int offset
  (FindBackward = 1, FindCaseSensitively = 2); `flagsInt` reproduces this.
* QTextDocument::find with a plain string (used by replaceAll) is modelled
  concretely by `qtFindString`: the first occurrence at or after the start
  position that lies within a single block (Qt searches block by block, so
  a match never spans a block separator); the empty needle finds nothing.
* GUI-only effects (painting, focus signals, ensureCursorVisible, the
  repaint in saveRegionBounds, QApplication::processEvents) are not state
  of this model and are omitted.
-/

namespace OutputTextEdit

/-- A text cursor: an anchor and a position, as in QTextCursor. -/
structure Cursor where
  anchor : Nat
  position : Nat
  deriving DecidableEq

/-- Selection start: the smaller of anchor and position. -/
def Cursor.selStart (c : Cursor) : Nat := min c.anchor c.position

/-- Selection end: the larger of anchor and position. -/
def Cursor.selEnd (c : Cursor) : Nat := max c.anchor c.position

/-- QTextCursor::hasSelection: anchor and position differ. -/
def Cursor.hasSelection (c : Cursor) : Bool := c.anchor != c.position

/-- The text selected by a cursor, as a slice of the document. -/
def selectedText (doc : List Char) (c : Cursor) : List Char :=
  (doc.drop c.selStart).take (c.selEnd - c.selStart)

/-- Start position of the block containing position `p`: one past the last
block separator strictly before `p` (0 for the first block). -/
def blockStart (doc : List Char) (p : Nat) : Nat :=
  match (doc.take p).reverse.findIdx? (fun ch => ch = '\n') with
  | some k => p - k
  | none => 0

/-- QTextCursor::positionInBlock. -/
def positionInBlock (doc : List Char) (p : Nat) : Nat := p - blockStart doc p

/-- QTextCursor::atBlockEnd: the position is the document end or sits on a
block separator. -/
def atBlockEnd (doc : List Char) (p : Nat) : Bool :=
  p == doc.length || doc.getD p ' ' == '\n'

/-- Replace the slice `[s, e)` of the document by `repl`
(QTextCursor::insertText over a selection). -/
def splice (doc : List Char) (s e : Nat) (repl : List Char) : List Char :=
  doc.take s ++ repl ++ doc.drop e

/-- OutputTextEdit::regionBounds: a copy of the stored region cursor,
normalized so that anchor <= position. -/
def regionBounds (c : Cursor) : Cursor :=
  if c.anchor > c.position then ⟨c.position, c.anchor⟩ else c

theorem regionBounds_eq (c : Cursor) :
    regionBounds c = ⟨min c.anchor c.position, max c.anchor c.position⟩ := by
  unfold regionBounds
  by_cases h : c.anchor > c.position
  · simp only [h, if_true]
    congr 1 <;> omega
  · simp only [h, if_false]
    cases c with
    | mk a p =>
      simp only [Cursor.mk.injEq]
      simp only [gt_iff_lt, not_lt] at h
      constructor <;> omega

theorem regionBounds_le (c : Cursor) :
    (regionBounds c).anchor ≤ (regionBounds c).position := by
  rw [regionBounds_eq]
  simp only
  omega

/-- C9: regionBounds always returns a normalized cursor: its anchor is at
most its position, and it spans exactly the same character range (same
min and max) as the stored region cursor, regardless of the direction in
which the region was selected. -/
theorem c9_regionBounds_normalized (c : Cursor) :
    (regionBounds c).anchor ≤ (regionBounds c).position ∧
    (regionBounds c).anchor = min c.anchor c.position ∧
    (regionBounds c).position = max c.anchor c.position := by
  rw [regionBounds_eq]
  refine ⟨?_, rfl, rfl⟩
  simp only
  omega

/-- Character comparison under a case-sensitivity flag (QString matching). -/
def charMatches (mc : Bool) (a b : Char) : Bool :=
  if mc then a == b else a.toLower == b.toLower

/-- The needle occurs at position `p` of the document (plain-string match). -/
def occursAt (mc : Bool) (doc needle : List Char) (p : Nat) : Bool :=
  decide (p + needle.length ≤ doc.length) &&
  (List.range needle.length).all
    (fun i => charMatches mc (doc.getD (p + i) ' ') (needle.getD i ' '))

/-- The needle occurs at `p` without spanning a block separator.  Qt searches
block by block, so a needle containing a separator never matches. -/
def blockOccursAt (mc : Bool) (doc needle : List Char) (p : Nat) : Bool :=
  !(needle.contains '\n') && occursAt mc doc needle p

/-- First index at or after `p` (within `fuel` steps) satisfying `pred`. -/
def firstIdxFrom (pred : Nat → Bool) : Nat → Nat → Option Nat
  | _, 0 => none
  | p, fuel + 1 => if pred p then some p else firstIdxFrom pred (p + 1) fuel

/-- Last index at or below `p` satisfying `pred`. -/
def lastIdxUpTo (pred : Nat → Bool) : Nat → Option Nat
  | 0 => if pred 0 then some 0 else none
  | p + 1 => if pred (p + 1) then some (p + 1) else lastIdxUpTo pred p

/-- QTextDocument::find(const QString, from): first occurrence of the needle
at or after `start` within one block, as a (start, end) pair.  The empty
needle finds nothing. -/
def qtFindString (mc : Bool) (doc needle : List Char) (start : Nat) :
    Option (Nat × Nat) :=
  if needle.isEmpty then none
  else
    (firstIdxFrom (fun p => blockOccursAt mc doc needle p) start
      (doc.length + 1 - start)).map (fun p => (p, p + needle.length))

theorem firstIdxFrom_some {pred : Nat → Bool} :
    ∀ {fuel p q}, firstIdxFrom pred p fuel = some q →
      p ≤ q ∧ q < p + fuel ∧ pred q = true ∧
      ∀ r, p ≤ r → r < q → pred r = false := by
  intro fuel
  induction fuel with
  | zero => intro p q h; simp [firstIdxFrom] at h
  | succ n ih =>
    intro p q h
    unfold firstIdxFrom at h
    by_cases hp : pred p
    · simp only [hp, if_true, Option.some.injEq] at h
      subst h
      exact ⟨Nat.le_refl _, by omega, hp, fun r h1 h2 => by omega⟩
    · simp only [hp, if_false] at h
      obtain ⟨h1, h2, h3, h4⟩ := ih h
      refine ⟨by omega, by omega, h3, ?_⟩
      intro r hr1 hr2
      rcases Nat.eq_or_lt_of_le hr1 with he | hl
      · subst he; simpa using hp
      · exact h4 r hl hr2

theorem firstIdxFrom_none {pred : Nat → Bool} :
    ∀ {fuel p}, firstIdxFrom pred p fuel = none →
      ∀ r, p ≤ r → r < p + fuel → pred r = false := by
  intro fuel
  induction fuel with
  | zero => intro p _ r h1 h2; omega
  | succ n ih =>
    intro p h r h1 h2
    unfold firstIdxFrom at h
    by_cases hp : pred p
    · simp [hp] at h
    · simp only [hp, if_false] at h
      rcases Nat.eq_or_lt_of_le h1 with he | hl
      · subst he; simpa using hp
      · exact ih h r hl (by omega)

theorem lastIdxUpTo_some {pred : Nat → Bool} :
    ∀ {p q}, lastIdxUpTo pred p = some q → q ≤ p ∧ pred q = true := by
  intro p
  induction p with
  | zero =>
    intro q h
    unfold lastIdxUpTo at h
    by_cases hp : pred 0 <;> simp [hp] at h
    exact ⟨by omega, h ▸ hp⟩
  | succ n ih =>
    intro q h
    unfold lastIdxUpTo at h
    by_cases hp : pred (n + 1)
    · simp only [hp, if_true, Option.some.injEq] at h
      exact ⟨by omega, h ▸ hp⟩
    · simp only [hp, if_false] at h
      obtain ⟨h1, h2⟩ := ih h
      exact ⟨by omega, h2⟩

theorem occursAt_length {mc : Bool} {doc needle : List Char} {p : Nat}
    (h : occursAt mc doc needle p = true) : p + needle.length ≤ doc.length := by
  unfold occursAt at h
  simp only [Bool.and_eq_true, decide_eq_true_eq] at h
  exact h.1

theorem blockOccursAt_length {mc : Bool} {doc needle : List Char} {p : Nat}
    (h : blockOccursAt mc doc needle p = true) :
    p + needle.length ≤ doc.length := by
  unfold blockOccursAt at h
  simp only [Bool.and_eq_true] at h
  exact occursAt_length h.2

theorem qtFindString_some {mc : Bool} {doc needle : List Char} {start p e : Nat}
    (h : qtFindString mc doc needle start = some (p, e)) :
    start ≤ p ∧ e = p + needle.length ∧ needle ≠ [] ∧
    blockOccursAt mc doc needle p = true ∧
    ∀ r, start ≤ r → r < p → blockOccursAt mc doc needle r = false := by
  unfold qtFindString at h
  cases hne : needle.isEmpty with
  | true => simp [hne] at h
  | false =>
    simp only [hne, Bool.false_eq_true, if_false, Option.map_eq_some'] at h
    obtain ⟨q, hf, he⟩ := h
    simp only [Prod.mk.injEq] at he
    obtain ⟨hq, he⟩ := he
    subst hq
    obtain ⟨h1, _, h3, h4⟩ := firstIdxFrom_some hf
    refine ⟨h1, he.symm, ?_, h3, h4⟩
    intro hc
    subst hc
    simp at hne

theorem qtFindString_none {mc : Bool} {doc needle : List Char} {start : Nat}
    (h : qtFindString mc doc needle start = none) (hne : needle ≠ []) :
    ∀ r, start ≤ r → blockOccursAt mc doc needle r = false := by
  unfold qtFindString at h
  have hne' : needle.isEmpty = false := by
    cases needle with
    | nil => simp at hne
    | cons a l => rfl
  simp only [hne', Bool.false_eq_true, if_false, Option.map_eq_none'] at h
  intro r hr
  by_cases hcov : r < start + (doc.length + 1 - start)
  · exact firstIdxFrom_none h r hr hcov
  · by_cases hb : blockOccursAt mc doc needle r
    · have hlen := blockOccursAt_length hb
      have hnl : 1 ≤ needle.length := by
        cases needle with
        | nil => simp at hne
        | cons a l => simp
      omega
    · simpa using hb

/-- An abstract QRegularExpression together with the Qt document-search
operations the widget uses on it.  Found (start, end) pairs stand for a
cursor with anchor = start and position = end. -/
structure QRegex where
  findFwd : List Char → Nat → Option (Nat × Nat)
  findBwd : List Char → Nat → Option (Nat × Nat)
  hasMatchFrom : List Char → Nat → Bool
  isMatchAt : List Char → Nat → Nat → Bool

/-- Soundness of a matcher: every search result is an actual match. -/
def QRegex.Sound (re : QRegex) : Prop :=
  (∀ doc p a b, re.findFwd doc p = some (a, b) → re.isMatchAt doc a b = true) ∧
  (∀ doc p a b, re.findBwd doc p = some (a, b) → re.isMatchAt doc a b = true)

/-- The matcher of a literal (meta-character-free) pattern. -/
def literalRegex (pat : List Char) : QRegex where
  findFwd doc p := qtFindString true doc pat p
  findBwd doc p :=
    if pat.isEmpty then none
    else (lastIdxUpTo (fun q => blockOccursAt true doc pat q)
        (min p doc.length)).map (fun q => (q, q + pat.length))
  hasMatchFrom text off :=
    (firstIdxFrom (fun q => blockOccursAt true text pat q) off
      (text.length + 1 - off)).isSome
  isMatchAt doc a b := decide (b = a + pat.length) && blockOccursAt true doc pat a

/-- The matcher of the pattern that recognizes the empty string at a block
end (a zero-width match, like the line-anchor pattern). -/
def lineEndRegex : QRegex where
  findFwd doc p :=
    (firstIdxFrom (fun q => atBlockEnd doc q) p (doc.length + 1 - p)).map
      (fun q => (q, q))
  findBwd doc p :=
    (lastIdxUpTo (fun q => atBlockEnd doc q) (min p doc.length)).map
      (fun q => (q, q))
  hasMatchFrom text off := decide (off ≤ text.length)
  isMatchAt doc a b := (a == b) && atBlockEnd doc a

theorem literalRegex_sound (pat : List Char) : (literalRegex pat).Sound := by
  constructor
  · intro doc p a b h
    simp only [literalRegex] at h ⊢
    obtain ⟨_, he, _, hocc, _⟩ := qtFindString_some h
    simp only [Bool.and_eq_true, decide_eq_true_eq]
    exact ⟨he, hocc⟩
  · intro doc p a b h
    simp only [literalRegex] at h ⊢
    cases hne : pat.isEmpty with
    | true => simp [hne] at h
    | false =>
      simp only [hne, Bool.false_eq_true, if_false, Option.map_eq_some'] at h
      obtain ⟨q, hq, he⟩ := h
      obtain ⟨_, hocc⟩ := lastIdxUpTo_some hq
      simp only [Prod.mk.injEq] at he
      obtain ⟨ha, hb⟩ := he
      subst ha
      simp only [Bool.and_eq_true, decide_eq_true_eq]
      exact ⟨hb.symm, hocc⟩

theorem lineEndRegex_sound : lineEndRegex.Sound := by
  constructor
  · intro doc p a b h
    simp only [lineEndRegex, Option.map_eq_some'] at h ⊢
    obtain ⟨q, hq, he⟩ := h
    obtain ⟨_, _, hpred, _⟩ := firstIdxFrom_some hq
    simp only [Prod.mk.injEq] at he
    obtain ⟨ha, hb⟩ := he
    subst ha
    subst hb
    simp [hpred]
  · intro doc p a b h
    simp only [lineEndRegex, Option.map_eq_some'] at h ⊢
    obtain ⟨q, hq, he⟩ := h
    obtain ⟨_, hpred⟩ := lastIdxUpTo_some hq
    simp only [Prod.mk.injEq] at he
    obtain ⟨ha, hb⟩ := he
    subst ha
    subst hb
    simp [hpred]

/-- The widget state relevant to find/replace: the document, the text
cursor, the stored region cursor, the entire-region flag and the focus
state. -/
structure EditorState where
  doc : List Char
  cursor : Cursor
  regionCursor : Cursor
  entireRegion : Bool
  focused : Bool
  deriving DecidableEq

/-- All cursor fields point into the document. -/
def EditorState.Valid (st : EditorState) : Prop :=
  st.cursor.anchor ≤ st.doc.length ∧ st.cursor.position ≤ st.doc.length ∧
  st.regionCursor.anchor ≤ st.doc.length ∧
  st.regionCursor.position ≤ st.doc.length

/-- The int value of the QTextDocument::FindFlags, as implicitly passed for
the offset argument of QRegularExpression::match in the C++ source
(FindBackward = 1, FindCaseSensitively = 2). -/
def flagsInt (bw mc : Bool) : Nat :=
  (if bw then 1 else 0) + (if mc then 2 else 0)

/-- Position adjustment Qt applies to other cursors when the slice `[s, e)`
is replaced by text of length `len`: positions inside the removed range
collapse to `s`, later positions shift, and positions at or after the
insertion point move past the inserted text. -/
def adjustPos (s e len q : Nat) : Nat :=
  let qd := if q ≤ s then q else if q ≤ e then s else q - (e - s)
  if qd < s then qd else qd + len

/-- QTextDocument::find(regex, cursor, flags): searches forwards from the
cursor's selection end, backwards from its selection start; a found match
becomes a cursor selecting it (anchor = start, position = end). -/
def qfindCursor (re : QRegex) (doc : List Char) (c : Cursor) (bw : Bool) :
    Option Cursor :=
  match (if bw then re.findBwd doc c.selStart else re.findFwd doc c.selEnd) with
  | some ab => some ⟨ab.1, ab.2⟩
  | none => none

/-- The acceptance test of lines 166 and 177 of the C++ source: the found
cursor is non-null and lies inside the (normalized) region. -/
def goodResult (fc : Option Cursor) (rc : Cursor) : Bool :=
  match fc with
  | none => false
  | some c => decide (rc.anchor ≤ c.anchor) && decide (c.position ≤ rc.position)

/-- The zero-width-stuck test of lines 134 and 147 of the C++ source, for a
zero-width find result at position `a` (a null find result never passes it,
since a null cursor is not at a block end). -/
def stuckCondition (bw : Bool) (doc : List Char) (sc : Cursor) (a : Nat) :
    Bool :=
  if bw then atBlockEnd doc a && (sc.anchor == positionInBlock doc a + 1)
  else atBlockEnd doc a && atBlockEnd doc sc.position

/-- The position the stuck recovery of lines 141 and 151-157 moves the
search start to: backwards one position left, clamped to the region start;
forwards one position right, wrapping to the region start when that would
reach or pass the region end. -/
def stuckAdj (bw : Bool) (sc rc : Cursor) : Nat :=
  if bw then max (sc.position - 1) rc.anchor
  else if sc.position + 1 ≥ rc.position then rc.anchor else sc.position + 1

/-- Outcome of the first search phase of findReplace (lines 128-164): the
find result after possible stuck recovery, the recovery position explicitly
set (if the recovery ran), and the number of document searches performed. -/
structure Phase1Out where
  fc : Option Cursor
  recoveryPos : Option Nat
  searches : Nat
  deriving DecidableEq

/-- Lines 128-164 of the C++ source: first document search from the
(possibly collapsed) selection cursor, with zero-width stuck recovery. -/
def frPhase1 (re : QRegex) (bw : Bool) (doc : List Char) (rc sc : Cursor) :
    Phase1Out :=
  match qfindCursor re doc sc bw with
  | none => ⟨none, none, 1⟩
  | some c =>
    if c.position == c.anchor && stuckCondition bw doc sc c.position then
      let p := stuckAdj bw sc rc
      ⟨qfindCursor re doc ⟨p, p⟩ bw, some p, 2⟩
    else ⟨some c, none, 1⟩

/-- Lines 106-125 (non-replace part): when the regex has a match in the
selected text, collapse the selection to its left end (backwards) or right
end (forwards) before searching. -/
def frSelStart (re : QRegex) (bw mc : Bool) (doc : List Char) (c : Cursor) :
    Cursor :=
  if re.hasMatchFrom (selectedText doc c) (flagsInt bw mc) then
    if bw then ⟨c.selStart, c.selStart⟩ else ⟨c.selEnd, c.selEnd⟩
  else c

/-- Lines 128-181: the search part of findReplace.  If the first phase's
result is null or outside the region, wrap to the region end (backwards) or
region start (forwards) and search once more; a result failing the region
test again means failure.  Returns the accepted cursor (if any) and the
total number of document searches. -/
def frSearch (re : QRegex) (bw : Bool) (doc : List Char) (rc sc : Cursor) :
    Option Cursor × Nat :=
  let p1 := frPhase1 re bw doc rc sc
  if goodResult p1.fc rc then (p1.fc, p1.searches)
  else
    let wrapPos := if bw then rc.position else rc.anchor
    let fc2 := qfindCursor re doc ⟨wrapPos, wrapPos⟩ bw
    if goodResult fc2 rc then (fc2, p1.searches + 1)
    else (none, p1.searches + 1)

/-- Result of findReplace: the return value, the new document, the new text
cursor, the stored region cursor (with Qt's automatic position adjustment
after an edit), and the number of document searches performed.  On a false
return the text cursor is not re-installed. -/
structure FRResult where
  found : Bool
  doc : List Char
  cursor : Cursor
  region : Cursor
  searches : Nat
  deriving DecidableEq

/-- OutputTextEdit::findReplace.  GUI effects (clearFocus,
ensureCursorVisible, signal-driven repaints) are not modelled. -/
def findReplace (re : QRegex) (bw replace mc : Bool)
    (searchstr replacestr : List Char) (st : EditorState) : FRResult :=
  if searchstr.isEmpty then ⟨false, st.doc, st.cursor, st.regionCursor, 0⟩
  else if re.hasMatchFrom (selectedText st.doc st.cursor) (flagsInt bw mc)
      && replace then
    let s := st.cursor.selStart
    let e := st.cursor.selEnd
    ⟨true, splice st.doc s e replacestr, ⟨s + replacestr.length, s⟩,
      ⟨adjustPos s e replacestr.length st.regionCursor.anchor,
        adjustPos s e replacestr.length st.regionCursor.position⟩, 0⟩
  else
    let rc := regionBounds st.regionCursor
    let sc := frSelStart re bw mc st.doc st.cursor
    match frSearch re bw st.doc rc sc with
    | (some c, n) => ⟨true, st.doc, c, st.regionCursor, n⟩
    | (none, n) => ⟨false, st.doc, st.cursor, st.regionCursor, n⟩

/-- The loop of OutputTextEdit::replaceAll (lines 207-216), with explicit
fuel: find the next occurrence from the cursor, stop when there is none or
it ends past the adjusted end bound, otherwise replace it and continue
after the inserted text.  Running out of fuel yields `none`. -/
def replaceAllLoop (needle repl : List Char) (mc : Bool) :
    Nat → List Char → Nat → Nat → Nat → Option (List Char × Nat)
  | 0, _, _, _, _ => none
  | fuel + 1, doc, pos, endB, count =>
    match qtFindString mc doc needle pos with
    | none => some (doc, count)
    | some pr =>
      if endB < pr.2 then some (doc, count)
      else
        replaceAllLoop needle repl mc fuel (splice doc pr.1 pr.2 repl)
          (pr.1 + repl.length) (endB + repl.length - needle.length) (count + 1)

/-- Lines 188-200 of the C++ source: the start position and end bound of the
replaceAll scan.  When the region selection is empty, or its text equals the
search or the replacement string, the entire document is used; otherwise the
normalized region. -/
def raStartEnd (searchstr replacestr : List Char) (st : EditorState) :
    Nat × Nat :=
  let rc := regionBounds st.regionCursor
  let cursel := selectedText st.doc rc
  if rc.anchor == rc.position || cursel == searchstr || cursel == replacestr
  then (0, st.doc.length)
  else (min rc.anchor rc.position, rc.position)

/-- OutputTextEdit::replaceAll: returns whether anything was replaced, and
the resulting document.  The fuel given to the loop is shown sufficient in
the termination theorem. -/
def replaceAll (searchstr replacestr : List Char) (mc : Bool)
    (st : EditorState) : Bool × List Char :=
  let pe := raStartEnd searchstr replacestr st
  match replaceAllLoop searchstr replacestr mc (pe.2 - pe.1 + 1) st.doc
      pe.1 pe.2 0 with
  | some dc => (decide (dc.2 ≠ 0), dc.1)
  | none => (false, st.doc)

/-- OutputTextEdit::saveRegionBounds.  When focused, the region follows the
text cursor, except that a selection without whitespace (a single word) is
cleared; a region without selection then becomes the entire document, and
the entire-region flag records whether the region cursor is exactly
(0, document end).  The repaint is GUI-only and not modelled. -/
def srbRegion1 (st : EditorState) : Cursor :=
  if st.focused then
    if !(selectedText st.doc st.cursor).any (fun ch => ch.isWhitespace) then
      ⟨st.cursor.position, st.cursor.position⟩
    else st.cursor
  else st.regionCursor

def srbRegion2 (st : EditorState) : Cursor :=
  if (srbRegion1 st).anchor == (srbRegion1 st).position then
    ⟨0, st.doc.length⟩
  else srbRegion1 st

def saveRegionBounds (st : EditorState) : EditorState :=
  { st with
      regionCursor := srbRegion2 st
      entireRegion := decide ((srbRegion2 st).anchor = 0 ∧
        (srbRegion2 st).position = st.doc.length) }

theorem isEmpty_false_of_ne_nil {l : List Char} (h : l ≠ []) :
    l.isEmpty = false := by
  cases l with
  | nil => simp at h
  | cons a t => rfl

theorem selectedText_splice (doc r : List Char) (s e : Nat)
    (hs : s ≤ doc.length) :
    selectedText (splice doc s e r) ⟨s + r.length, s⟩ = r := by
  unfold selectedText splice Cursor.selStart Cursor.selEnd
  simp only
  have h1 : min (s + r.length) s = s := by omega
  have h2 : max (s + r.length) s = s + r.length := by omega
  rw [h1, h2, List.append_assoc]
  have hd : (doc.take s ++ (r ++ doc.drop e)).drop s = r ++ doc.drop e :=
    List.drop_left' (by simp [List.length_take]; omega)
  rw [hd]
  have h3 : s + r.length - s = r.length := by omega
  rw [h3]
  exact List.take_left' rfl

/-- C8: findReplace with an empty search string returns false and leaves
the document, the text cursor and the stored working region unchanged. -/
theorem c8_empty_search (re : QRegex) (bw rep mc : Bool)
    (replacestr : List Char) (st : EditorState) :
    findReplace re bw rep mc [] replacestr st =
      ⟨false, st.doc, st.cursor, st.regionCursor, 0⟩ := by
  unfold findReplace
  rfl

/-- C4 (amended): when replace is requested and the search regex has a
match in the currently selected text at or after the offset given by the
integer value of the find flags (the code's condition, since the C++
passes the FindFlags where QRegularExpression::match expects an offset),
findReplace replaces the selected text by the replacement string, installs
a cursor selecting exactly the inserted replacement (the
replacement-length characters ending at the insertion point), and returns
true.  A selection that matches the regex only before that offset is not
replaced; see the counterexample. -/
theorem c4_replace_selection (re : QRegex) (bw mc : Bool)
    (searchstr replacestr : List Char) (st : EditorState)
    (hne : searchstr ≠ [])
    (hm : re.hasMatchFrom (selectedText st.doc st.cursor) (flagsInt bw mc)
      = true)
    (hv : st.cursor.anchor ≤ st.doc.length ∧
      st.cursor.position ≤ st.doc.length) :
    (findReplace re bw true mc searchstr replacestr st).found = true ∧
    (findReplace re bw true mc searchstr replacestr st).doc =
      splice st.doc st.cursor.selStart st.cursor.selEnd replacestr ∧
    (findReplace re bw true mc searchstr replacestr st).cursor =
      ⟨st.cursor.selStart + replacestr.length, st.cursor.selStart⟩ ∧
    selectedText (findReplace re bw true mc searchstr replacestr st).doc
      (findReplace re bw true mc searchstr replacestr st).cursor =
      replacestr := by
  have hie := isEmpty_false_of_ne_nil hne
  have hfr : findReplace re bw true mc searchstr replacestr st =
      ⟨true, splice st.doc st.cursor.selStart st.cursor.selEnd replacestr,
        ⟨st.cursor.selStart + replacestr.length, st.cursor.selStart⟩,
        ⟨adjustPos st.cursor.selStart st.cursor.selEnd replacestr.length
            st.regionCursor.anchor,
          adjustPos st.cursor.selStart st.cursor.selEnd replacestr.length
            st.regionCursor.position⟩, 0⟩ := by
    unfold findReplace
    rw [hie]
    simp only [Bool.false_eq_true, if_false, hm, Bool.true_and, if_true]
  rw [hfr]
  refine ⟨rfl, rfl, rfl, ?_⟩
  exact selectedText_splice st.doc replacestr st.cursor.selStart
    st.cursor.selEnd (by unfold Cursor.selStart; omega)

theorem c4_witness :
    (['b'] : List Char) ≠ [] ∧
    (literalRegex ['b']).hasMatchFrom
      (selectedText "ab".toList ⟨0, 2⟩) (flagsInt false false) = true ∧
    ((findReplace (literalRegex ['b']) false true false ['b'] "xy".toList
        ⟨"ab".toList, ⟨0, 2⟩, ⟨0, 2⟩, true, false⟩).found = true ∧
      (findReplace (literalRegex ['b']) false true false ['b'] "xy".toList
        ⟨"ab".toList, ⟨0, 2⟩, ⟨0, 2⟩, true, false⟩).doc =
        splice "ab".toList (Cursor.selStart ⟨0, 2⟩) (Cursor.selEnd ⟨0, 2⟩)
          "xy".toList ∧
      (findReplace (literalRegex ['b']) false true false ['b'] "xy".toList
        ⟨"ab".toList, ⟨0, 2⟩, ⟨0, 2⟩, true, false⟩).cursor =
        ⟨Cursor.selStart ⟨0, 2⟩ + ("xy".toList).length,
          Cursor.selStart ⟨0, 2⟩⟩ ∧
      selectedText
        (findReplace (literalRegex ['b']) false true false ['b'] "xy".toList
          ⟨"ab".toList, ⟨0, 2⟩, ⟨0, 2⟩, true, false⟩).doc
        (findReplace (literalRegex ['b']) false true false ['b'] "xy".toList
          ⟨"ab".toList, ⟨0, 2⟩, ⟨0, 2⟩, true, false⟩).cursor = "xy".toList) :=
  ⟨by decide, by decide,
    c4_replace_selection (literalRegex ['b']) false false ['b'] "xy".toList
      ⟨"ab".toList, ⟨0, 2⟩, ⟨0, 2⟩, true, false⟩ (by decide) (by decide)
      ⟨by decide, by decide⟩⟩

theorem c4_counterexample :
    (literalRegex ['b']).hasMatchFrom (selectedText "b".toList ⟨0, 1⟩) 0
      = true ∧
    (literalRegex ['b']).isMatchAt "b".toList 0 1 = true ∧
    findReplace (literalRegex ['b']) true true false ['b'] ['X']
      ⟨"b".toList, ⟨0, 1⟩, ⟨0, 1⟩, true, false⟩ =
      ⟨true, "b".toList, ⟨0, 1⟩, ⟨0, 1⟩, 1⟩ ∧
    ("b".toList : List Char) ≠ splice "b".toList 0 1 ['X'] := by
  decide

/-- C3: when the document search returns a zero-width match at a block end
without having advanced past the start position, findReplace moves the
search start one position further in the search direction (backwards: one
left, clamped to the region start; forwards: one right, wrapping to the
region start when that would reach or pass the region end) and searches
again from there. -/
theorem c3_zero_width_recovery (re : QRegex) (bw : Bool) (doc : List Char)
    (rc sc : Cursor) (a : Nat)
    (h1 : qfindCursor re doc sc bw = some ⟨a, a⟩)
    (h2 : stuckCondition bw doc sc a = true) :
    frPhase1 re bw doc rc sc =
      ⟨qfindCursor re doc ⟨stuckAdj bw sc rc, stuckAdj bw sc rc⟩ bw,
        some (stuckAdj bw sc rc), 2⟩ ∧
    (bw = true → stuckAdj bw sc rc = max (sc.position - 1) rc.anchor) ∧
    (bw = false → stuckAdj bw sc rc =
      if sc.position + 1 ≥ rc.position then rc.anchor
      else sc.position + 1) := by
  refine ⟨?_, ?_, ?_⟩
  · unfold frPhase1
    rw [h1]
    simp only [beq_self_eq_true, Bool.true_and, h2, if_true]
  · intro hb
    subst hb
    rfl
  · intro hb
    subst hb
    rfl

theorem c3_witness :
    qfindCursor lineEndRegex "ab".toList ⟨2, 2⟩ false = some ⟨2, 2⟩ ∧
    stuckCondition false "ab".toList ⟨2, 2⟩ 2 = true ∧
    frPhase1 lineEndRegex false "ab".toList ⟨0, 2⟩ ⟨2, 2⟩ =
      ⟨qfindCursor lineEndRegex "ab".toList ⟨0, 0⟩ false, some 0, 2⟩ :=
  ⟨by decide, by decide, by
    have h := (c3_zero_width_recovery lineEndRegex false "ab".toList ⟨0, 2⟩
      ⟨2, 2⟩ 2 (by decide) (by decide)).1
    have ha : stuckAdj false ⟨2, 2⟩ ⟨0, 2⟩ = 0 := by decide
    rw [ha] at h
    exact h⟩

/-- C10 (amended): after saveRegionBounds the stored region is never an
empty selection on a non-empty document, and the entire-region flag is true
exactly when the stored region is (document start, document end); the reset
of the region to the entire document on an empty or whitespace-free
selection only happens when the widget has focus. -/
theorem c10_region_invariants (st : EditorState) :
    (0 < st.doc.length →
      (saveRegionBounds st).regionCursor.anchor ≠
        (saveRegionBounds st).regionCursor.position) ∧
    (st.focused = true →
      (selectedText st.doc st.cursor).any (fun ch => ch.isWhitespace)
        = false →
      (saveRegionBounds st).regionCursor = ⟨0, st.doc.length⟩) ∧
    ((saveRegionBounds st).entireRegion = true ↔
      (saveRegionBounds st).regionCursor.anchor = 0 ∧
      (saveRegionBounds st).regionCursor.position = st.doc.length) := by
  have hreg : (saveRegionBounds st).regionCursor = srbRegion2 st := rfl
  have hent : (saveRegionBounds st).entireRegion =
      decide ((srbRegion2 st).anchor = 0 ∧
        (srbRegion2 st).position = st.doc.length) := rfl
  refine ⟨?_, ?_, ?_⟩
  · intro hlen
    rw [hreg]
    unfold srbRegion2
    by_cases h : (srbRegion1 st).anchor = (srbRegion1 st).position
    · simp only [h, beq_self_eq_true, if_true]
      show (0 : Nat) ≠ st.doc.length
      omega
    · have hb : ((srbRegion1 st).anchor == (srbRegion1 st).position) = false :=
        by simpa using h
      rw [hb]
      simpa using h
  · intro hf hw
    rw [hreg]
    have h1 : srbRegion1 st = ⟨st.cursor.position, st.cursor.position⟩ := by
      unfold srbRegion1
      rw [hf, hw]
      rfl
    unfold srbRegion2
    rw [h1]
    simp
  · rw [hreg, hent]
    constructor
    · intro h
      exact of_decide_eq_true h
    · intro h
      exact decide_eq_true h

theorem c10_witness :
    (saveRegionBounds ⟨"ab".toList, ⟨0, 0⟩, ⟨0, 1⟩, false, true⟩).regionCursor
      = ⟨0, ("ab".toList).length⟩ ∧
    (saveRegionBounds ⟨"ab".toList, ⟨0, 0⟩, ⟨0, 1⟩, false,
        true⟩).regionCursor.anchor ≠
      (saveRegionBounds ⟨"ab".toList, ⟨0, 0⟩, ⟨0, 1⟩, false,
        true⟩).regionCursor.position :=
  ⟨(c10_region_invariants ⟨"ab".toList, ⟨0, 0⟩, ⟨0, 1⟩, false, true⟩).2.1
      rfl (by decide),
    (c10_region_invariants ⟨"ab".toList, ⟨0, 0⟩, ⟨0, 1⟩, false, true⟩).1
      (by decide)⟩

theorem c10_counterexample :
    (⟨"abcdef".toList, ⟨0, 0⟩, ⟨1, 3⟩, false, false⟩ : EditorState).cursor.anchor
      = (⟨"abcdef".toList, ⟨0, 0⟩, ⟨1, 3⟩, false,
        false⟩ : EditorState).cursor.position ∧
    (saveRegionBounds
        ⟨"abcdef".toList, ⟨0, 0⟩, ⟨1, 3⟩, false, false⟩).regionCursor =
      ⟨1, 3⟩ ∧
    (saveRegionBounds
        ⟨"abcdef".toList, ⟨0, 0⟩, ⟨1, 3⟩, false, false⟩).regionCursor ≠
      ⟨0, ("abcdef".toList).length⟩ := by
  decide

theorem frSelStart_position_le (re : QRegex) (bw mc : Bool)
    (doc : List Char) (c : Cursor) :
    (frSelStart re bw mc doc c).position ≤ max c.anchor c.position := by
  unfold frSelStart
  split
  · split
    · show Cursor.selStart c ≤ max c.anchor c.position
      unfold Cursor.selStart
      omega
    · show Cursor.selEnd c ≤ max c.anchor c.position
      unfold Cursor.selEnd
      omega
  · omega

theorem stuckAdj_le (bw : Bool) (sc rc : Cursor) (n : Nat)
    (hsc : sc.position ≤ n) (ha : rc.anchor ≤ n) (hp : rc.position ≤ n) :
    stuckAdj bw sc rc ≤ n := by
  unfold stuckAdj
  cases bw with
  | true =>
    simp only [if_true]
    omega
  | false =>
    simp only [Bool.false_eq_true, if_false]
    split
    · exact ha
    · omega

theorem frPhase1_recoveryPos_eq {re : QRegex} {bw : Bool} {doc : List Char}
    {rc sc : Cursor} {p : Nat}
    (h : (frPhase1 re bw doc rc sc).recoveryPos = some p) :
    p = stuckAdj bw sc rc := by
  unfold frPhase1 at h
  cases hq : qfindCursor re doc sc bw with
  | none =>
    rw [hq] at h
    simp at h
  | some c =>
    rw [hq] at h
    by_cases hc :
        (c.position == c.anchor && stuckCondition bw doc sc c.position) = true
    · simp only [hc, if_true] at h
      simp only [Option.some.injEq] at h
      exact h.symm
    · simp only [hc, if_false] at h
      simp at h

/-- C7 (amended): every cursor position findReplace explicitly sets while
advancing the search (the stuck-recovery position and the wraparound
positions, which are the normalized region bounds) lies within the
document; the wraparound positions moreover lie within the region, but a
stuck-recovery position may leave the region (see the counterexample). -/
theorem c7_positions_in_document (re : QRegex) (bw mc : Bool)
    (st : EditorState) (hv : st.Valid) :
    (∀ p, (frPhase1 re bw st.doc (regionBounds st.regionCursor)
        (frSelStart re bw mc st.doc st.cursor)).recoveryPos = some p →
      p ≤ st.doc.length) ∧
    (regionBounds st.regionCursor).anchor ≤ st.doc.length ∧
    (regionBounds st.regionCursor).position ≤ st.doc.length := by
  obtain ⟨hv1, hv2, hv3, hv4⟩ := hv
  have hrb : (regionBounds st.regionCursor).anchor ≤ st.doc.length ∧
      (regionBounds st.regionCursor).position ≤ st.doc.length := by
    rw [regionBounds_eq]
    constructor <;> simp only <;> omega
  refine ⟨?_, hrb.1, hrb.2⟩
  intro p hp
  have hps : p = stuckAdj bw (frSelStart re bw mc st.doc st.cursor)
      (regionBounds st.regionCursor) := frPhase1_recoveryPos_eq hp
  subst hps
  apply stuckAdj_le
  · have h1 := frSelStart_position_le re bw mc st.doc st.cursor
    omega
  · exact hrb.1
  · exact hrb.2

theorem c7_witness :
    (frPhase1 lineEndRegex false "ab".toList (regionBounds ⟨0, 2⟩)
        (frSelStart lineEndRegex false false "ab".toList
          ⟨2, 2⟩)).recoveryPos = some 0 ∧
    0 ≤ ("ab".toList).length :=
  ⟨by decide,
    (c7_positions_in_document lineEndRegex false false
        ⟨"ab".toList, ⟨2, 2⟩, ⟨0, 2⟩, true, false⟩
        ⟨by decide, by decide, by decide, by decide⟩).1 0 (by decide)⟩

theorem c7_counterexample :
    (frPhase1 lineEndRegex true "ab\ncd".toList (regionBounds ⟨0, 1⟩)
        (frSelStart lineEndRegex true false "ab\ncd".toList
          ⟨3, 3⟩)).recoveryPos = some 2 ∧
    (regionBounds (⟨0, 1⟩ : Cursor)).position = 1 ∧
    ¬(2 ≤ (regionBounds (⟨0, 1⟩ : Cursor)).position) ∧
    (3 ≤ ("ab\ncd".toList).length) := by
  decide

/-- C2: when the first search phase (from the current cursor, including the
zero-width stuck recovery) produces no result inside the working region,
findReplace wraps around at the region boundaries, restarting the search
from the region end when searching backwards and from the region start when
searching forwards, and returns false exactly when this second search also
produces no result inside the region. -/
theorem c2_wraparound (re : QRegex) (bw rep mc : Bool)
    (searchstr replacestr : List Char) (st : EditorState)
    (hne : searchstr ≠ [])
    (hnr : (re.hasMatchFrom (selectedText st.doc st.cursor)
      (flagsInt bw mc) && rep) = false)
    (hfail : goodResult
      (frPhase1 re bw st.doc (regionBounds st.regionCursor)
        (frSelStart re bw mc st.doc st.cursor)).fc
      (regionBounds st.regionCursor) = false) :
    (goodResult
        (qfindCursor re st.doc
          ⟨(if bw then (regionBounds st.regionCursor).position
              else (regionBounds st.regionCursor).anchor),
            (if bw then (regionBounds st.regionCursor).position
              else (regionBounds st.regionCursor).anchor)⟩ bw)
        (regionBounds st.regionCursor) = false →
      findReplace re bw rep mc searchstr replacestr st =
        ⟨false, st.doc, st.cursor, st.regionCursor,
          (frPhase1 re bw st.doc (regionBounds st.regionCursor)
            (frSelStart re bw mc st.doc st.cursor)).searches + 1⟩) ∧
    (∀ c, qfindCursor re st.doc
        ⟨(if bw then (regionBounds st.regionCursor).position
            else (regionBounds st.regionCursor).anchor),
          (if bw then (regionBounds st.regionCursor).position
            else (regionBounds st.regionCursor).anchor)⟩ bw = some c →
      goodResult (some c) (regionBounds st.regionCursor) = true →
      findReplace re bw rep mc searchstr replacestr st =
        ⟨true, st.doc, c, st.regionCursor,
          (frPhase1 re bw st.doc (regionBounds st.regionCursor)
            (frSelStart re bw mc st.doc st.cursor)).searches + 1⟩) := by
  have hie := isEmpty_false_of_ne_nil hne
  have hfr : findReplace re bw rep mc searchstr replacestr st =
      (match frSearch re bw st.doc (regionBounds st.regionCursor)
          (frSelStart re bw mc st.doc st.cursor) with
        | (some c, n) => ⟨true, st.doc, c, st.regionCursor, n⟩
        | (none, n) => ⟨false, st.doc, st.cursor, st.regionCursor, n⟩) := by
    unfold findReplace
    rw [hie, hnr]
    simp only [Bool.false_eq_true, if_false]
  have hfs : frSearch re bw st.doc (regionBounds st.regionCursor)
      (frSelStart re bw mc st.doc st.cursor) =
      (if goodResult
          (qfindCursor re st.doc
            ⟨(if bw then (regionBounds st.regionCursor).position
                else (regionBounds st.regionCursor).anchor),
              (if bw then (regionBounds st.regionCursor).position
                else (regionBounds st.regionCursor).anchor)⟩ bw)
          (regionBounds st.regionCursor) then
        (qfindCursor re st.doc
          ⟨(if bw then (regionBounds st.regionCursor).position
              else (regionBounds st.regionCursor).anchor),
            (if bw then (regionBounds st.regionCursor).position
              else (regionBounds st.regionCursor).anchor)⟩ bw,
          (frPhase1 re bw st.doc (regionBounds st.regionCursor)
            (frSelStart re bw mc st.doc st.cursor)).searches + 1)
      else (none,
        (frPhase1 re bw st.doc (regionBounds st.regionCursor)
          (frSelStart re bw mc st.doc st.cursor)).searches + 1)) := by
    unfold frSearch
    simp only [hfail, Bool.false_eq_true, if_false]
  constructor
  · intro hg2
    rw [hfr, hfs, hg2]
    simp only [Bool.false_eq_true, if_false]
  · intro c hc hg2
    rw [hfr, hfs, hc, hg2]
    simp only [if_true]

theorem c2_witness :
    (['b'] : List Char) ≠ [] ∧
    goodResult
      (frPhase1 (literalRegex ['b']) false "ab".toList (regionBounds ⟨0, 2⟩)
        (frSelStart (literalRegex ['b']) false false "ab".toList ⟨2, 2⟩)).fc
      (regionBounds ⟨0, 2⟩) = false ∧
    findReplace (literalRegex ['b']) false false false ['b'] []
      ⟨"ab".toList, ⟨2, 2⟩, ⟨0, 2⟩, true, false⟩ =
      ⟨true, "ab".toList, ⟨1, 2⟩, ⟨0, 2⟩, 2⟩ :=
  ⟨by decide, by decide, by
    have h := (c2_wraparound (literalRegex ['b']) false false false ['b'] []
      ⟨"ab".toList, ⟨2, 2⟩, ⟨0, 2⟩, true, false⟩ (by decide) (by decide)
      (by decide)).2 ⟨1, 2⟩ (by decide) (by decide)
    exact h.trans (by decide)⟩

theorem frPhase1_fc_from_find {re : QRegex} {bw : Bool} {doc : List Char}
    {rc sc : Cursor} {c : Cursor}
    (h : (frPhase1 re bw doc rc sc).fc = some c) :
    ∃ cur, qfindCursor re doc cur bw = some c := by
  unfold frPhase1 at h
  cases hq : qfindCursor re doc sc bw with
  | none =>
    rw [hq] at h
    simp at h
  | some c0 =>
    rw [hq] at h
    by_cases hc :
        (c0.position == c0.anchor && stuckCondition bw doc sc c0.position)
          = true
    · simp only [hc, if_true] at h
      exact ⟨_, h⟩
    · simp only [hc, Bool.false_eq_true, if_false, Option.some.injEq] at h
      exact ⟨sc, by rw [hq, h]⟩

theorem qfindCursor_match {re : QRegex} (hs : re.Sound) {doc : List Char}
    {cur : Cursor} {bw : Bool} {c : Cursor}
    (h : qfindCursor re doc cur bw = some c) :
    re.isMatchAt doc c.anchor c.position = true := by
  unfold qfindCursor at h
  cases bw with
  | true =>
    simp only [if_true] at h
    cases hf : re.findBwd doc cur.selStart with
    | none => rw [hf] at h; simp at h
    | some ab =>
      rw [hf] at h
      simp only [Option.some.injEq] at h
      subst h
      simp only
      exact hs.2 doc cur.selStart ab.1 ab.2 (by rw [← hf])
  | false =>
    simp only [Bool.false_eq_true, if_false] at h
    cases hf : re.findFwd doc cur.selEnd with
    | none => rw [hf] at h; simp at h
    | some ab =>
      rw [hf] at h
      simp only [Option.some.injEq] at h
      subst h
      simp only
      exact hs.1 doc cur.selEnd ab.1 ab.2 (by rw [← hf])

theorem goodResult_bounds {rc : Cursor} {c : Cursor}
    (h : goodResult (some c) rc = true) :
    rc.anchor ≤ c.anchor ∧ c.position ≤ rc.position := by
  unfold goodResult at h
  simp only [Bool.and_eq_true, decide_eq_true_eq] at h
  exact h

theorem frSearch_some {re : QRegex} {bw : Bool} {doc : List Char}
    {rc sc : Cursor} {c : Cursor} {n : Nat}
    (h : frSearch re bw doc rc sc = (some c, n)) :
    (∃ cur, qfindCursor re doc cur bw = some c) ∧
    rc.anchor ≤ c.anchor ∧ c.position ≤ rc.position := by
  unfold frSearch at h
  by_cases hg : goodResult (frPhase1 re bw doc rc sc).fc rc = true
  · simp only [hg, if_true] at h
    simp only [Prod.mk.injEq] at h
    obtain ⟨h1, _⟩ := h
    exact ⟨frPhase1_fc_from_find h1, goodResult_bounds (h1 ▸ hg)⟩
  · simp only [hg, Bool.false_eq_true, if_false] at h
    by_cases hg2 : goodResult
        (qfindCursor re doc
          ⟨(if bw then rc.position else rc.anchor),
            (if bw then rc.position else rc.anchor)⟩ bw) rc = true
    · simp only [hg2, if_true] at h
      simp only [Prod.mk.injEq] at h
      obtain ⟨h1, _⟩ := h
      exact ⟨⟨_, h1⟩, goodResult_bounds (h1 ▸ hg2)⟩
    · simp only [hg2, Bool.false_eq_true, if_false] at h
      simp at h

/-- C1 (amended, restricted to non-replace invocations): with a sound
matcher and a non-empty search string, whenever the non-replacing
findReplace returns true the cursor it installs selects a regex match whose
start is at least the region start and whose end is at most the region end;
consequently, if no match lies inside the working region it returns false.
(The replacing branch violates the original claim; see the
counterexample.) -/
theorem c1_found_in_region (re : QRegex) (hs : re.Sound) (bw mc : Bool)
    (searchstr replacestr : List Char) (st : EditorState)
    (hne : searchstr ≠ []) :
    ((findReplace re bw false mc searchstr replacestr st).found = true →
      (regionBounds st.regionCursor).anchor ≤
        (findReplace re bw false mc searchstr replacestr st).cursor.anchor ∧
      (findReplace re bw false mc searchstr replacestr st).cursor.position ≤
        (regionBounds st.regionCursor).position ∧
      re.isMatchAt st.doc
        (findReplace re bw false mc searchstr replacestr st).cursor.anchor
        (findReplace re bw false mc searchstr replacestr st).cursor.position
        = true) ∧
    ((∀ a b : Nat, (regionBounds st.regionCursor).anchor ≤ a →
        b ≤ (regionBounds st.regionCursor).position →
        re.isMatchAt st.doc a b = false) →
      (findReplace re bw false mc searchstr replacestr st).found = false) := by
  have hie := isEmpty_false_of_ne_nil hne
  have hfr : findReplace re bw false mc searchstr replacestr st =
      (match frSearch re bw st.doc (regionBounds st.regionCursor)
          (frSelStart re bw mc st.doc st.cursor) with
        | (some c, n) => ⟨true, st.doc, c, st.regionCursor, n⟩
        | (none, n) => ⟨false, st.doc, st.cursor, st.regionCursor, n⟩) := by
    unfold findReplace
    rw [hie]
    simp only [Bool.and_false, Bool.false_eq_true, if_false]
  rcases hres : frSearch re bw st.doc (regionBounds st.regionCursor)
      (frSelStart re bw mc st.doc st.cursor) with ⟨fc, n⟩
  cases fc with
  | some c =>
    rw [hres] at hfr
    obtain ⟨⟨cur, hcur⟩, hb1, hb2⟩ := frSearch_some hres
    have hmatch := qfindCursor_match hs hcur
    constructor
    · intro _
      rw [hfr]
      exact ⟨hb1, hb2, hmatch⟩
    · intro hno
      exact absurd hmatch (by rw [hno c.anchor c.position hb1 hb2]; simp)
  | none =>
    rw [hres] at hfr
    constructor
    · intro hfound
      rw [hfr] at hfound
      simp at hfound
    · intro _
      rw [hfr]

theorem c1_witness :
    (regionBounds (⟨0, 2⟩ : Cursor)).anchor ≤
      (findReplace (literalRegex ['b']) false false false ['b'] []
        ⟨"ab".toList, ⟨0, 0⟩, ⟨0, 2⟩, true, false⟩).cursor.anchor ∧
    (findReplace (literalRegex ['b']) false false false ['b'] []
      ⟨"ab".toList, ⟨0, 0⟩, ⟨0, 2⟩, true, false⟩).cursor.position ≤
      (regionBounds (⟨0, 2⟩ : Cursor)).position ∧
    (literalRegex ['b']).isMatchAt "ab".toList
      (findReplace (literalRegex ['b']) false false false ['b'] []
        ⟨"ab".toList, ⟨0, 0⟩, ⟨0, 2⟩, true, false⟩).cursor.anchor
      (findReplace (literalRegex ['b']) false false false ['b'] []
        ⟨"ab".toList, ⟨0, 0⟩, ⟨0, 2⟩, true, false⟩).cursor.position = true :=
  (c1_found_in_region (literalRegex ['b']) (literalRegex_sound ['b'])
    false false ['b'] [] ⟨"ab".toList, ⟨0, 0⟩, ⟨0, 2⟩, true, false⟩
    (by decide)).1 (by decide)

theorem c1_counterexample :
    (findReplace (literalRegex ['!']) false true false ['!'] ['q']
        ⟨"a b!!".toList, ⟨3, 5⟩, ⟨0, 3⟩, false, false⟩).found = true ∧
    (findReplace (literalRegex ['!']) false true false ['!'] ['q']
        ⟨"a b!!".toList, ⟨3, 5⟩, ⟨0, 3⟩, false, false⟩).cursor.selEnd = 4 ∧
    (regionBounds (⟨0, 3⟩ : Cursor)).position = 3 ∧
    (literalRegex ['!']).isMatchAt
      (findReplace (literalRegex ['!']) false true false ['!'] ['q']
        ⟨"a b!!".toList, ⟨3, 5⟩, ⟨0, 3⟩, false, false⟩).doc
      (findReplace (literalRegex ['!']) false true false ['!'] ['q']
        ⟨"a b!!".toList, ⟨3, 5⟩, ⟨0, 3⟩, false, false⟩).cursor.selStart
      (findReplace (literalRegex ['!']) false true false ['!'] ['q']
        ⟨"a b!!".toList, ⟨3, 5⟩, ⟨0, 3⟩, false, false⟩).cursor.selEnd
      = false := by
  decide

theorem frPhase1_searches_le (re : QRegex) (bw : Bool) (doc : List Char)
    (rc sc : Cursor) : (frPhase1 re bw doc rc sc).searches ≤ 2 := by
  unfold frPhase1
  cases hq : qfindCursor re doc sc bw with
  | none => simp
  | some c =>
    by_cases hc :
        (c.position == c.anchor && stuckCondition bw doc sc c.position) = true
    · simp only [hc, if_true]
      omega
    · simp only [hc, Bool.false_eq_true, if_false]
      simp

theorem frSearch_searches_le (re : QRegex) (bw : Bool) (doc : List Char)
    (rc sc : Cursor) : (frSearch re bw doc rc sc).2 ≤ 3 := by
  unfold frSearch
  have h1 := frPhase1_searches_le re bw doc rc sc
  by_cases hg : goodResult (frPhase1 re bw doc rc sc).fc rc = true
  · simp only [hg, if_true]
    omega
  · simp only [hg, Bool.false_eq_true, if_false]
    by_cases hg2 : goodResult
        (qfindCursor re doc
          ⟨(if bw then rc.position else rc.anchor),
            (if bw then rc.position else rc.anchor)⟩ bw) rc = true
    · simp only [hg2, if_true]
      show (frPhase1 re bw doc rc sc).searches + 1 ≤ 3
      omega
    · simp only [hg2, Bool.false_eq_true, if_false]
      show (frPhase1 re bw doc rc sc).searches + 1 ≤ 3
      omega

theorem replaceAllLoop_isSome (needle repl : List Char) (mc : Bool) :
    ∀ fuel doc pos endB count, endB + 1 - pos ≤ fuel → 1 ≤ fuel →
      (replaceAllLoop needle repl mc fuel doc pos endB count).isSome
        = true := by
  intro fuel
  induction fuel with
  | zero =>
    intro doc pos endB count h h1
    omega
  | succ f ih =>
    intro doc pos endB count h h1
    unfold replaceAllLoop
    cases hf : qtFindString mc doc needle pos with
    | none => simp
    | some pr =>
      obtain ⟨p, e⟩ := pr
      by_cases hend : endB < e
      · simp only [hend, if_true, Option.isSome_some]
      · simp only [hend, if_false]
        obtain ⟨hp1, hp2, hp3, hp4, _⟩ := qtFindString_some hf
        have hnl : 1 ≤ needle.length := List.length_pos.mpr hp3
        subst hp2
        exact ih _ _ _ _ (by omega) (by omega)

/-- C6: findReplace performs at most three document searches per
invocation, and the replaceAll loop always terminates: with the fuel
replaceAll supplies (one more than the distance from scan start to end
bound) the loop always reaches a regular exit, for every search string,
replacement string and document. -/
theorem c6_termination (re : QRegex) (bw rep mc : Bool)
    (searchstr replacestr : List Char) (st st2 : EditorState) :
    (findReplace re bw rep mc searchstr replacestr st).searches ≤ 3 ∧
    (replaceAllLoop searchstr replacestr mc
        ((raStartEnd searchstr replacestr st2).2 -
          (raStartEnd searchstr replacestr st2).1 + 1)
        st2.doc (raStartEnd searchstr replacestr st2).1
        (raStartEnd searchstr replacestr st2).2 0).isSome = true := by
  constructor
  · unfold findReplace
    by_cases he : searchstr.isEmpty = true
    · simp only [he, if_true]
      omega
    · simp only [he, Bool.false_eq_true, if_false]
      by_cases hm : (re.hasMatchFrom (selectedText st.doc st.cursor)
          (flagsInt bw mc) && rep) = true
      · simp only [hm, if_true]
        omega
      · simp only [hm, Bool.false_eq_true, if_false]
        have h3 := frSearch_searches_le re bw st.doc
          (regionBounds st.regionCursor) (frSelStart re bw mc st.doc st.cursor)
        rcases hres : frSearch re bw st.doc (regionBounds st.regionCursor)
            (frSelStart re bw mc st.doc st.cursor) with ⟨fc, n⟩
        rw [hres] at h3
        cases fc with
        | some c => simp only; exact h3
        | none => simp only; exact h3
  · exact replaceAllLoop_isSome searchstr replacestr mc _ st2.doc _ _ 0
      (by omega) (by omega)

theorem take_split {α : Type _} (l : List α) (a b : Nat) (h : a ≤ b) :
    l.take b = l.take a ++ (l.drop a).take (b - a) := by
  rw [List.take_drop]
  have hb : a + (b - a) = b := by omega
  rw [hb]
  have ha : l.take a = (l.take b).take a := by
    rw [List.take_take]
    congr 1
    omega
  rw [ha]
  exact (List.take_append_drop a (l.take b)).symm

theorem drop_append_ge {α : Type _} (A B : List α) (k : Nat)
    (h : A.length ≤ k) : (A ++ B).drop k = B.drop (k - A.length) := by
  conv_lhs => rw [show k = A.length + (k - A.length) from by omega]
  rw [← List.drop_drop, List.drop_left]

theorem list_decomp {α : Type _} (l : List α) (a b : Nat) (h : a ≤ b) :
    l = l.take a ++ (l.drop a).take (b - a) ++ l.drop b := by
  rw [← take_split l a b h]
  exact (List.take_append_drop b l).symm

theorem splice_take (doc repl : List Char) (p e : Nat)
    (hp : p ≤ doc.length) :
    (splice doc p e repl).take (p + repl.length) = doc.take p ++ repl := by
  unfold splice
  exact List.take_left' (by simp [List.length_take]; omega)

theorem splice_drop (doc repl : List Char) (p e k : Nat)
    (hp : p ≤ doc.length) (hk : p + repl.length ≤ k) :
    (splice doc p e repl).drop k =
      (doc.drop e).drop (k - (p + repl.length)) := by
  unfold splice
  have h1 : (doc.take p ++ repl ++ doc.drop e).drop k =
      ((doc.take p ++ repl) ++ doc.drop e).drop k := rfl
  rw [h1, drop_append_ge _ _ k (by simp [List.length_take]; omega)]
  congr 1
  simp [List.length_take]
  omega

theorem replaceAllLoop_region (needle repl : List Char) (mc : Bool) :
    ∀ fuel doc pos endB count d c, pos ≤ endB →
      replaceAllLoop needle repl mc fuel doc pos endB count = some (d, c) →
      ∃ mid, d = doc.take pos ++ mid ++ doc.drop endB := by
  intro fuel
  induction fuel with
  | zero =>
    intro doc pos endB count d c hpe h
    simp [replaceAllLoop] at h
  | succ f ih =>
    intro doc pos endB count d c hpe h
    unfold replaceAllLoop at h
    cases hf : qtFindString mc doc needle pos with
    | none =>
      rw [hf] at h
      simp only [Option.some.injEq, Prod.mk.injEq] at h
      refine ⟨(doc.drop pos).take (endB - pos), ?_⟩
      rw [← h.1]
      exact list_decomp doc pos endB hpe
    | some pr =>
      obtain ⟨p, e⟩ := pr
      rw [hf] at h
      by_cases hend : endB < e
      · simp only [hend, if_true, Option.some.injEq, Prod.mk.injEq] at h
        refine ⟨(doc.drop pos).take (endB - pos), ?_⟩
        rw [← h.1]
        exact list_decomp doc pos endB hpe
      · simp only [hend, if_false] at h
        obtain ⟨hp1, hp2, hp3, hp4, _⟩ := qtFindString_some hf
        have hnl : 1 ≤ needle.length := List.length_pos.mpr hp3
        have hple : p + needle.length ≤ doc.length :=
          blockOccursAt_length hp4
        have hee : e ≤ endB := by omega
        subst hp2
        have hnewle : p + repl.length ≤
            endB + repl.length - needle.length := by omega
        obtain ⟨mid, hmid⟩ := ih _ _ _ _ _ _ hnewle h
        have htake : (splice doc p (p + needle.length) repl).take
            (p + repl.length) = doc.take p ++ repl :=
          splice_take doc repl p (p + needle.length) (by omega)
        have hdrop : (splice doc p (p + needle.length) repl).drop
            (endB + repl.length - needle.length) =
            doc.drop endB := by
          rw [splice_drop doc repl p (p + needle.length)
            (endB + repl.length - needle.length) (by omega) hnewle]
          rw [List.drop_drop]
          congr 1
          omega
        rw [htake, hdrop] at hmid
        refine ⟨(doc.drop pos).take (p - pos) ++ repl ++ mid, ?_⟩
        rw [hmid]
        rw [take_split doc pos p hp1]
        simp only [List.append_assoc]


theorem replaceAllLoop_count_le (needle repl : List Char) (mc : Bool) :
    ∀ fuel doc pos endB count d c,
      replaceAllLoop needle repl mc fuel doc pos endB count = some (d, c) →
      count ≤ c := by
  intro fuel
  induction fuel with
  | zero =>
    intro doc pos endB count d c h
    simp [replaceAllLoop] at h
  | succ f ih =>
    intro doc pos endB count d c h
    unfold replaceAllLoop at h
    cases hf : qtFindString mc doc needle pos with
    | none =>
      rw [hf] at h
      simp only [Option.some.injEq, Prod.mk.injEq] at h
      omega
    | some pr =>
      obtain ⟨p, e⟩ := pr
      rw [hf] at h
      by_cases hend : endB < e
      · simp only [hend, if_true, Option.some.injEq, Prod.mk.injEq] at h
        omega
      · simp only [hend, if_false] at h
        have := ih _ _ _ _ _ _ h
        omega

theorem replaceAllLoop_true_iff (needle repl : List Char) (mc : Bool)
    (fuel : Nat) (doc : List Char) (pos endB : Nat)
    (hne : needle ≠ []) (hfuel : endB + 1 - pos ≤ fuel) (hf1 : 1 ≤ fuel) :
    ∃ d c, replaceAllLoop needle repl mc fuel doc pos endB 0 = some (d, c) ∧
      (c ≠ 0 ↔ ∃ p, pos ≤ p ∧ blockOccursAt mc doc needle p = true ∧
        p + needle.length ≤ endB) := by
  cases fuel with
  | zero => omega
  | succ f =>
    cases hf : qtFindString mc doc needle pos with
    | none =>
      refine ⟨doc, 0, ?_, ?_⟩
      · unfold replaceAllLoop
        rw [hf]
      · constructor
        · intro hc
          exact absurd rfl hc
        · intro hc
          obtain ⟨p, hp1, hp2, _⟩ := hc
          have := qtFindString_none hf hne p hp1
          rw [hp2] at this
          simp at this
    | some pr =>
      obtain ⟨p, e⟩ := pr
      obtain ⟨hp1, hp2, hp3, hp4, hp5⟩ := qtFindString_some hf
      have hnl : 1 ≤ needle.length := List.length_pos.mpr hp3
      by_cases hend : endB < e
      · refine ⟨doc, 0, ?_, ?_⟩
        · unfold replaceAllLoop
          rw [hf]
          simp only [hend, if_true]
        · constructor
          · intro hc
            exact absurd rfl hc
          · intro hc
            obtain ⟨q, hq1, hq2, hq3⟩ := hc
            by_cases hqp : q < p
            · have := hp5 q hq1 hqp
              rw [hq2] at this
              simp at this
            · omega
      · have hsome := replaceAllLoop_isSome needle repl mc f
          (splice doc p e repl) (p + repl.length)
          (endB + repl.length - needle.length) 1
          (by omega) (by omega)
        obtain ⟨dc, hdc⟩ := Option.isSome_iff_exists.mp hsome
        obtain ⟨d, c⟩ := dc
        have hcle := replaceAllLoop_count_le needle repl mc _ _ _ _ _ _ _ hdc
        refine ⟨d, c, ?_, ?_⟩
        · unfold replaceAllLoop
          rw [hf]
          simp only [hend, if_false]
          exact hdc
        · constructor
          · intro _
            exact ⟨p, hp1, hp4, by omega⟩
          · intro _
            omega

/-- C5 (amended): when the working region's selection is non-empty and its
text differs from both the search and the replacement string, replaceAll
changes the document only inside the region (the text before the region
start and after the region end is preserved), and it returns true exactly
when at least one occurrence of the search string lies entirely inside the
region (so it returns false when nothing was replaced).  When the region
selection is empty or equals the search or replacement string, the scan is
widened to the entire document; see the counterexample. -/
theorem c5_region_scoped (searchstr replacestr : List Char) (mc : Bool)
    (st : EditorState)
    (hne : searchstr ≠ [])
    (hsel : (regionBounds st.regionCursor).anchor ≠
      (regionBounds st.regionCursor).position)
    (h1 : selectedText st.doc (regionBounds st.regionCursor) ≠ searchstr)
    (h2 : selectedText st.doc (regionBounds st.regionCursor) ≠ replacestr) :
    (∃ mid, (replaceAll searchstr replacestr mc st).2 =
        st.doc.take (regionBounds st.regionCursor).anchor ++ mid ++
        st.doc.drop (regionBounds st.regionCursor).position) ∧
    ((replaceAll searchstr replacestr mc st).1 = true ↔
      ∃ p, (regionBounds st.regionCursor).anchor ≤ p ∧
        blockOccursAt mc st.doc searchstr p = true ∧
        p + searchstr.length ≤ (regionBounds st.regionCursor).position) := by
  have hle := regionBounds_le st.regionCursor
  obtain ⟨d, c, hsome, hiff⟩ := replaceAllLoop_true_iff searchstr replacestr
    mc ((regionBounds st.regionCursor).position -
      (regionBounds st.regionCursor).anchor + 1)
    st.doc (regionBounds st.regionCursor).anchor
    (regionBounds st.regionCursor).position hne (by omega) (by omega)
  have hra : raStartEnd searchstr replacestr st =
      ((regionBounds st.regionCursor).anchor,
        (regionBounds st.regionCursor).position) := by
    unfold raStartEnd
    have e1 : ((regionBounds st.regionCursor).anchor ==
        (regionBounds st.regionCursor).position) = false := by
      simpa using hsel
    have e2 : (selectedText st.doc (regionBounds st.regionCursor) ==
        searchstr) = false := by
      simpa using h1
    have e3 : (selectedText st.doc (regionBounds st.regionCursor) ==
        replacestr) = false := by
      simpa using h2
    simp only [e1, e2, e3, Bool.or_self, Bool.false_or, Bool.or_false,
      Bool.false_eq_true, if_false]
    congr 1
    exact Nat.min_eq_left hle
  have hrepl : replaceAll searchstr replacestr mc st = (decide (c ≠ 0), d)
      := by
    unfold replaceAll
    simp only [hra]
    rw [hsome]
  constructor
  · obtain ⟨mid, hmid⟩ := replaceAllLoop_region searchstr replacestr mc
      _ _ _ _ _ _ _ hle hsome
    refine ⟨mid, ?_⟩
    rw [hrepl]
    exact hmid
  · rw [hrepl]
    simp only [decide_eq_true_eq]
    exact hiff

theorem c5_witness :
    ("ab".toList : List Char) ≠ [] ∧
    (regionBounds (⟨0, 4⟩ : Cursor)).anchor ≠
      (regionBounds (⟨0, 4⟩ : Cursor)).position ∧
    ((∃ mid, (replaceAll "ab".toList ['z'] true
        ⟨"ab c ab".toList, ⟨0, 0⟩, ⟨0, 4⟩, false, false⟩).2 =
        ("ab c ab".toList).take (regionBounds (⟨0, 4⟩ : Cursor)).anchor ++
          mid ++
          ("ab c ab".toList).drop
            (regionBounds (⟨0, 4⟩ : Cursor)).position) ∧
      ((replaceAll "ab".toList ['z'] true
          ⟨"ab c ab".toList, ⟨0, 0⟩, ⟨0, 4⟩, false, false⟩).1 = true ↔
        ∃ p, (regionBounds (⟨0, 4⟩ : Cursor)).anchor ≤ p ∧
          blockOccursAt true "ab c ab".toList "ab".toList p = true ∧
          p + ("ab".toList).length ≤
            (regionBounds (⟨0, 4⟩ : Cursor)).position)) :=
  ⟨by decide, by decide,
    c5_region_scoped "ab".toList ['z'] true
      ⟨"ab c ab".toList, ⟨0, 0⟩, ⟨0, 4⟩, false, false⟩
      (by decide) (by decide) (by decide) (by decide)⟩

theorem c5_counterexample :
    (replaceAll "a b".toList "xyz".toList true
      ⟨"a b,a b".toList, ⟨0, 0⟩, ⟨0, 3⟩, false, false⟩) =
      (true, "xyz,xyz".toList) ∧
    (regionBounds (⟨0, 3⟩ : Cursor)).position = 3 ∧
    ("xyz,xyz".toList).drop 3 ≠ ("a b,a b".toList).drop 3 := by
  decide

end OutputTextEdit
